import Mathlib

/-!
Verification of the document-to-structured-record extraction pipeline
(page-range parsing, chunking, slicing, result consolidation, text
sanitization) of the teacher-plan application, as a shallow embedding of
the TypeScript source into Lean.

JavaScript strings are modelled as `List Char` (all characters involved
lie in the Basic Multilingual Plane, so JavaScript's UTF-16 code-unit
lengths coincide with code-point counts).  Regex-based operations of the
source are translated into explicit recursive functions on `List Char`.
-/

namespace TeacherPlan

/-! ### JavaScript whitespace and basic string helpers -/

/-- The JavaScript `\s` character class (also the set used by
`String.prototype.trim`): tab, LF, VT, FF, CR, space, NBSP, Ogham space,
U+2000–U+200A, LS, PS, NNBSP, MMSP, ideographic space, BOM. -/
def isJsWs (c : Char) : Bool :=
  let n := c.toNat
  n == 0x9 || n == 0xa || n == 0xb || n == 0xc || n == 0xd || n == 0x20 ||
  n == 0xa0 || n == 0x1680 || (decide (0x2000 ≤ n) && decide (n ≤ 0x200a)) ||
  n == 0x2028 || n == 0x2029 || n == 0x202f || n == 0x205f || n == 0x3000 ||
  n == 0xfeff

/-- JavaScript `String.prototype.trim`: drop whitespace from both ends. -/
def trimChars (l : List Char) : List Char :=
  ((l.dropWhile isJsWs).reverse.dropWhile isJsWs).reverse

/-- JavaScript `.replace(/[\s　]+/g, '')` and `.replace(/\s+/g, '')`
(`\s` already contains U+3000, so both regexes strip the same set):
remove every whitespace character. -/
def removeWsChars (l : List Char) : List Char :=
  l.filter (fun c => !isJsWs c)

/-! ### Characters appearing in the sanitizer and the marker regex.
Written via `Char.ofNat` so the exact code points of the source file are
pinned down: the source uses U+C544 HANGUL SYLLABLE A followed by U+1162
HANGUL JUNGSEONG AE as the corrupted two-character sequence. -/

/-- Code point U+C544, the first character of the corrupted sequence in `sanitizeText`. -/
def ahChar : Char := Char.ofNat 0xC544

/-- Code point U+1162 HANGUL JUNGSEONG AE, the second character of the corrupted
sequence in `sanitizeText`. -/
def aeJamo : Char := Char.ofNat 0x1162

/-- Code point U+00B7 MIDDLE DOT, the canonical replacement character. -/
def midDot : Char := Char.ofNat 0xB7

/-- Code point U+FF65 HALFWIDTH KATAKANA MIDDLE DOT (the source's `/･/g` and
`/･/g` regexes denote this same code point). -/
def halfKanaDot : Char := Char.ofNat 0xFF65

/-! ### TextSanitizer (`sanitizeText` in the source) -/

/-- JavaScript `.replace(/아ᅢ/g, '·')`: left-to-right, non-overlapping
replacement of the two-character sequence U+C544 U+1162 by U+00B7. -/
def replaceAhAe : List Char → List Char
  | [] => []
  | [c] => [c]
  | a :: b :: rest =>
    if a = ahChar ∧ b = aeJamo then midDot :: replaceAhAe rest
    else a :: replaceAhAe (b :: rest)

/-- The single-character replacement `/･/g → '·'` (performed twice in the
source, as `/･/g` and `/･/g`, which denote the same code point; a
single map captures both since the map is idempotent pointwise). -/
def replFF (c : Char) : Char := if c = halfKanaDot then midDot else c

/-- Character-list core of `sanitizeText`. -/
def sanitizeChars (l : List Char) : List Char :=
  (replaceAhAe l).map replFF

/-- Model of `sanitizeText` of the source: `if (!text) return ""` then the three
global replacements. -/
def sanitizeText (s : String) : String :=
  if s = "" then "" else String.mk (sanitizeChars s.data)

/-! ### Sanitizer lemmas -/

/-- Two-step list induction principle used for the sanitizer proofs. -/
theorem twoStepInduction {motive : List Char → Prop} (h0 : motive [])
    (h1 : ∀ c, motive [c])
    (h2 : ∀ a b rest, motive rest → motive (b :: rest) → motive (a :: b :: rest)) :
    ∀ l, motive l := by
  have H : ∀ n (l : List Char), l.length ≤ n → motive l := by
    intro n
    induction n with
    | zero =>
      intro l hl
      match l with
      | [] => exact h0
    | succ n ih =>
      intro l hl
      match l with
      | [] => exact h0
      | [c] => exact h1 c
      | a :: b :: rest =>
        refine h2 a b rest (ih rest ?_) (ih (b :: rest) ?_) <;>
          simp only [List.length_cons] at hl ⊢ <;> omega
  exact fun l => H l.length l le_rfl

theorem replFF_idem (c : Char) : replFF (replFF c) = replFF c := by
  by_cases h : c = halfKanaDot
  · subst h; decide
  · simp [replFF, h]

theorem replaceAhAe_cons (a : Char) (rest : List Char) :
    (∃ t, replaceAhAe (a :: rest) = a :: t) ∨
    (∃ t, replaceAhAe (a :: rest) = midDot :: t) := by
  cases rest with
  | nil => exact Or.inl ⟨[], rfl⟩
  | cons b r =>
    by_cases h : a = ahChar ∧ b = aeJamo
    · exact Or.inr ⟨replaceAhAe r, by simp [replaceAhAe, h]⟩
    · exact Or.inl ⟨replaceAhAe (b :: r), by simp [replaceAhAe, h]⟩

/-- Absence of the corrupted two-character sequence. -/
def noAhAe : List Char → Bool
  | [] => true
  | [_] => true
  | a :: b :: rest => !(a == ahChar && b == aeJamo) && noAhAe (b :: rest)

theorem noAhAe_cons_pair (a d : Char) (t : List Char)
    (hne : ¬(a = ahChar ∧ d = aeJamo)) (ht : noAhAe (d :: t) = true) :
    noAhAe (a :: d :: t) = true := by
  simp only [noAhAe, Bool.and_eq_true, Bool.not_eq_true']
  refine ⟨?_, ht⟩
  by_cases h1 : a = ahChar <;> by_cases h2 : d = aeJamo <;>
    simp [h1, h2] at hne ⊢

theorem noAhAe_cons_ne (c : Char) (hc : c ≠ ahChar) (X : List Char)
    (hX : noAhAe X = true) : noAhAe (c :: X) = true := by
  cases X with
  | nil => rfl
  | cons d t => exact noAhAe_cons_pair c d t (fun h => hc h.1) hX

theorem noAhAe_tail (a : Char) (X : List Char) (h : noAhAe (a :: X) = true) :
    noAhAe X = true := by
  cases X with
  | nil => rfl
  | cons d t =>
    simp only [noAhAe, Bool.and_eq_true] at h
    exact h.2

theorem noAhAe_replaceAhAe : ∀ l, noAhAe (replaceAhAe l) = true := by
  intro l
  induction l using twoStepInduction with
  | h0 => rfl
  | h1 c => rfl
  | h2 a b rest ih1 ih2 =>
    by_cases h : a = ahChar ∧ b = aeJamo
    · rw [show replaceAhAe (a :: b :: rest) = midDot :: replaceAhAe rest from
        by simp [replaceAhAe, h]]
      exact noAhAe_cons_ne midDot (by decide) _ ih1
    · rw [show replaceAhAe (a :: b :: rest) = a :: replaceAhAe (b :: rest) from
        by simp [replaceAhAe, h]]
      rcases replaceAhAe_cons b rest with ⟨t, ht⟩ | ⟨t, ht⟩
      · rw [ht]
        refine noAhAe_cons_pair a b t ?_ ?_
        · exact h
        · rw [← ht]; exact ih2
      · rw [ht]
        refine noAhAe_cons_pair a midDot t ?_ ?_
        · rintro ⟨-, hmid⟩; exact absurd hmid (by decide)
        · rw [← ht]; exact ih2

theorem replaceAhAe_of_noAhAe : ∀ l, noAhAe l = true → replaceAhAe l = l := by
  intro l
  induction l using twoStepInduction with
  | h0 => intro _; rfl
  | h1 c => intro _; rfl
  | h2 a b rest ih1 ih2 =>
    intro h
    have hpair : ¬(a = ahChar ∧ b = aeJamo) := by
      simp only [noAhAe, Bool.and_eq_true, Bool.not_eq_true',
        Bool.and_eq_false_iff] at h
      rcases h.1 with h1 | h1 <;> rintro ⟨ha, hb⟩ <;> simp [ha, hb] at h1
    rw [show replaceAhAe (a :: b :: rest) = a :: replaceAhAe (b :: rest) from
      by simp [replaceAhAe, hpair]]
    rw [ih2 (noAhAe_tail a _ h)]

theorem replFF_eq_ah (x : Char) (h : replFF x = ahChar) : x = ahChar := by
  unfold replFF at h
  split at h
  · exact absurd h (by decide)
  · exact h

theorem replFF_eq_ae (x : Char) (h : replFF x = aeJamo) : x = aeJamo := by
  unfold replFF at h
  split at h
  · exact absurd h (by decide)
  · exact h

theorem noAhAe_map_replFF : ∀ l, noAhAe l = true → noAhAe (l.map replFF) = true := by
  intro l
  induction l using twoStepInduction with
  | h0 => intro _; rfl
  | h1 c => intro _; rfl
  | h2 a b rest ih1 ih2 =>
    intro h
    have hpair : ¬(a = ahChar ∧ b = aeJamo) := by
      simp only [noAhAe, Bool.and_eq_true, Bool.not_eq_true',
        Bool.and_eq_false_iff] at h
      rcases h.1 with h1 | h1 <;> rintro ⟨ha, hb⟩ <;> simp [ha, hb] at h1
    have : (a :: b :: rest).map replFF = replFF a :: (b :: rest).map replFF := rfl
    rw [this]
    have hbmap : (b :: rest).map replFF = replFF b :: rest.map replFF := rfl
    rw [hbmap]
    refine noAhAe_cons_pair _ _ _ ?_ ?_
    · rintro ⟨ha, hb⟩
      exact hpair ⟨replFF_eq_ah a ha, replFF_eq_ae b hb⟩
    · rw [← hbmap]
      exact ih2 (noAhAe_tail a _ h)

theorem map_replFF_idem (l : List Char) :
    (l.map replFF).map replFF = l.map replFF := by
  induction l with
  | nil => rfl
  | cons a t ih => simp only [List.map_cons, replFF_idem, ih]

theorem sanitizeChars_idem (l : List Char) :
    sanitizeChars (sanitizeChars l) = sanitizeChars l := by
  unfold sanitizeChars
  rw [replaceAhAe_of_noAhAe _ (noAhAe_map_replFF _ (noAhAe_replaceAhAe l))]
  exact map_replFF_idem _

theorem replaceAhAe_ne_nil (a : Char) (rest : List Char) :
    replaceAhAe (a :: rest) ≠ [] := by
  rcases replaceAhAe_cons a rest with ⟨t, ht⟩ | ⟨t, ht⟩ <;> simp [ht]

theorem sanitizeChars_ne_nil (a : Char) (rest : List Char) :
    sanitizeChars (a :: rest) ≠ [] := by
  unfold sanitizeChars
  intro h
  exact replaceAhAe_ne_nil a rest (List.map_eq_nil_iff.mp h)

theorem mk_eq_empty_iff (l : List Char) : String.mk l = "" ↔ l = [] := by
  constructor
  · intro h
    have : (String.mk l).data = ("" : String).data := by rw [h]
    exact this
  · intro h; subst h; rfl

/-- C8: the sanitizer is idempotent: `sanitize(sanitize(x)) = sanitize(x)`
for every string `x`. -/
theorem sanitizeText_idempotent (s : String) :
    sanitizeText (sanitizeText s) = sanitizeText s := by
  by_cases h : s = ""
  · subst h; rfl
  · have hd : s.data ≠ [] := by
      intro hnil
      apply h
      cases s with
      | mk l =>
        change l = [] at hnil
        subst hnil
        rfl
    have h1 : sanitizeText s = String.mk (sanitizeChars s.data) := by
      unfold sanitizeText
      rw [if_neg h]
    have h2 : String.mk (sanitizeChars s.data) ≠ "" := by
      intro hc
      rw [mk_eq_empty_iff] at hc
      cases hdata : s.data with
      | nil => exact hd hdata
      | cons a rest => rw [hdata] at hc; exact sanitizeChars_ne_nil a rest hc
    rw [h1]
    unfold sanitizeText
    rw [if_neg h2]
    change String.mk (sanitizeChars (sanitizeChars s.data)) = _
    rw [sanitizeChars_idem]

/-! ### Bracketed-code regex `/\[[^\]]+\]/` -/

/-- Scan for the first `]`; `splitCodeAux n l = some post` when `l`
decomposes as `pre ++ ']' :: post` with `pre` free of `]` and
`n + pre.length ≥ 1` (the regex body `[^\]]+` needs at least one
character).  Called with `n = 0` on the text following a `[`. -/
def splitCodeAux (n : ℕ) : List Char → Option (List Char)
  | [] => none
  | c :: rest =>
    if c = ']' then (if n = 0 then none else some rest)
    else splitCodeAux (n + 1) rest

/-- JavaScript `/\[[^\]]+\]/.test(s)`: some position starts a match
`[`, one-or-more non-`]` characters, `]`. -/
def hasCodeChars : List Char → Bool
  | [] => false
  | c :: rest =>
    if c = '[' then (splitCodeAux 0 rest).isSome || hasCodeChars rest
    else hasCodeChars rest

theorem splitCodeAux_length (n : ℕ) (l : List Char) (post : List Char)
    (h : splitCodeAux n l = some post) : post.length < l.length := by
  induction l generalizing n with
  | nil => exact absurd h (by simp [splitCodeAux])
  | cons c rest ih =>
    unfold splitCodeAux at h
    split at h
    · split at h
      · exact absurd h (by simp)
      · cases h; simp
    · have := ih (n + 1) h
      simp only [List.length_cons]
      omega

/-- Left-to-right removal of bracketed codes, structurally recursive on
a fuel bound so that the kernel can evaluate it.  Every step strictly
shortens the list (by `splitCodeAux_length`), so with `fuel ≥ l.length`
the fuel is never exhausted. -/
def removeCodesGo : ℕ → List Char → List Char
  | _, [] => []
  | 0, l => l
  | fuel + 1, c :: rest =>
    if c = '[' then
      match splitCodeAux 0 rest with
      | some post => removeCodesGo fuel post
      | none => c :: removeCodesGo fuel rest
    else c :: removeCodesGo fuel rest

/-- JavaScript `.replace(/\[[^\]]+\]/g, '')`: left-to-right removal of
every bracketed code. -/
def removeCodes (l : List Char) : List Char :=
  removeCodesGo l.length l

/-! ### ResultConsolidator (the dedup/filter loop and final map of
`parseStandardsAndGeneratePlan`) -/

/-- A candidate record as returned by one extraction call.  The source
handles loosely-typed objects whose absent fields behave as `''`; we
model the five text fields as total strings.  The source additionally
attaches, in its final map, a clock-derived identifier and empty
presentation fields (`period`, `hours`, `remarks`, `method`); these are
not part of the consolidation logic and are omitted. -/
structure Candidate where
  unit : String
  standard : String
  element : String
  teachingMethod : String
  notes : String
deriving DecidableEq, Repr

instance : Inhabited Candidate := ⟨⟨"", "", "", "", ""⟩⟩

/-- The header blacklist of the consolidation loop. -/
def headers : List String :=
  ["성취기준", "내용체계", "영역", "단원명", "평가요소", "교육과정",
   "핵심아이디어", "단원", "구분", "순서", "시기", "차시"]

/-- Tests that `needle` occurs at the start of `hay`. -/
def startsWithSub : List Char → List Char → Bool
  | [], _ => true
  | _ :: _, [] => false
  | a :: as, b :: bs => a == b && startsWithSub as bs

/-- JavaScript `hay.includes(needle)`: `needle` is a contiguous substring
of `hay`. -/
def containsSub (needle : List Char) : List Char → Bool
  | [] => needle == []
  | b :: bs => startsWithSub needle (b :: bs) || containsSub needle bs

/-- Model of `headers.some(h => cleanBody === h || cleanBody.includes('성취기준코드'))`
from the source (the `includes` test sits inside the `some` but does not
use `h`). -/
def headersHit (cleanBody : List Char) : Bool :=
  headers.any (fun h => cleanBody == h.data ||
    containsSub ("성취기준코드".data) cleanBody)

/-- Model of `/[다\.?]$/.test(bodyText)`: last character is 다, `.` or `?`. -/
def endsWithDa (l : List Char) : Bool :=
  match l.getLast? with
  | some c => c == '다' || c == '.' || c == '?'
  | none => false

/-- Model of `/[임음함]$/.test(bodyText)`: last character is 임, 음 or 함. -/
def endsWithNoun (l : List Char) : Bool :=
  match l.getLast? with
  | some c => c == '임' || c == '음' || c == '함'
  | none => false

/-- Model of `stdText.replace(/^[-·*]\s*/, '')`: strip one leading `-`, `·` (U+00B7)
or `*` together with the whitespace run following it. -/
def stripMarker : List Char → List Char
  | [] => []
  | c :: rest =>
    if c = '-' ∨ c = midDot ∨ c = '*' then rest.dropWhile isJsWs
    else c :: rest

/-- The loop's `stdText` after the cleanup of step 1: `(item.standard || '').trim()`
then leading-marker removal. -/
def cleanStdOf (c : Candidate) : List Char :=
  stripMarker (trimChars c.standard.data)

/-- The loop's `bodyText`: the cleaned standard text with every bracketed code
removed, trimmed. -/
def bodyOf (c : Candidate) : List Char :=
  trimChars (removeCodes (cleanStdOf c))

/-- The loop's `cleanBody`, the NormalizedKey: the body with all whitespace removed. -/
def cleanKeyOf (c : Candidate) : List Char :=
  removeWsChars (bodyOf c)

/-- One iteration of the consolidation loop of
`parseStandardsAndGeneratePlan`: state is `(finalItems, bodyMap)`.
`cleanStdOf item` is the loop's `stdText` after cleanup, `bodyOf item`
its `bodyText` and `cleanKeyOf item` its `cleanBody`.  The source's
`Map` is modelled as an association list with unique keys
(`List.lookup`); new bindings are consed, which agrees with the `Map`
because a binding is only added when its key is absent. -/
def consolidateStep (st : List Candidate × List (List Char × ℕ))
    (item : Candidate) : List Candidate × List (List Char × ℕ) :=
  if cleanStdOf item = [] ∨ (cleanStdOf item).length < 10 then st
  else if headersHit (cleanKeyOf item) = true then st
  else if (hasCodeChars (cleanStdOf item) = false ∧ endsWithDa (bodyOf item) = false ∧
           endsWithNoun (bodyOf item) = false) ∧ (cleanKeyOf item).length < 5 then st
  else if item.unit ≠ "" ∧ removeWsChars item.unit.data = cleanKeyOf item then st
  else
    match st.2.lookup (cleanKeyOf item) with
    | some index =>
      -- `existingHasCode` is tested on the raw stored standard text
      if hasCodeChars (st.1.getD index default).standard.data = false ∧
         hasCodeChars (cleanStdOf item) = true then
        (st.1.set index item, st.2)
      else st
    | none =>
      (st.1 ++ [item], (cleanKeyOf item, st.1.length) :: st.2)

/-- The filter/deduplication stage: the loop of the source run over the
merged candidate pool, yielding `finalItems`. -/
def dedupItems (items : List Candidate) : List Candidate :=
  (items.foldl consolidateStep ([], [])).1

/-- The final map of the source: every text field is sanitized. -/
def sanitizeFields (c : Candidate) : Candidate :=
  { unit := sanitizeText c.unit
    standard := sanitizeText c.standard
    element := sanitizeText c.element
    teachingMethod := sanitizeText c.teachingMethod
    notes := sanitizeText c.notes }

/-- The whole consolidation step (§4.5): filter/dedup loop followed by
the sanitizing map. -/
def consolidate (items : List Candidate) : List Candidate :=
  (dedupItems items).map sanitizeFields

/-- The acceptance predicate: a candidate passes every filter of the
consolidation loop (the complement of the four `continue` conditions). -/
def accepted (c : Candidate) : Prop :=
  ¬(cleanStdOf c = [] ∨ (cleanStdOf c).length < 10) ∧
  ¬(headersHit (cleanKeyOf c) = true) ∧
  ¬((hasCodeChars (cleanStdOf c) = false ∧ endsWithDa (bodyOf c) = false ∧
     endsWithNoun (bodyOf c) = false) ∧ (cleanKeyOf c).length < 5) ∧
  ¬(c.unit ≠ "" ∧ removeWsChars c.unit.data = cleanKeyOf c)

instance (c : Candidate) : Decidable (accepted c) := by
  unfold accepted
  infer_instance

/-! ### PageRangeParser (`parsePageRange` in the source) -/

/-- JavaScript `parseInt(s, 10)`: skip leading whitespace, an optional
sign, then the maximal digit run; `none` (NaN) when no digit follows. -/
def parseIntJs (l : List Char) : Option Int :=
  let l1 := l.dropWhile isJsWs
  let signed : Int × List Char :=
    match l1 with
    | '-' :: r => (-1, r)
    | '+' :: r => (1, r)
    | r => (1, r)
  let digits := signed.2.takeWhile Char.isDigit
  if digits = [] then none
  else some (signed.1 * (digits.foldl (fun n c => n * 10 + (c.toNat - 48)) 0 : ℕ))

/-- Model of `rangeStr.split(/,|\s+/)`: a comma or a maximal whitespace run ends
the current part. -/
def skipWsRun : List Char → List Char
  | [] => []
  | c :: rest => if isJsWs c then skipWsRun rest else c :: rest

theorem skipWsRun_length_le : ∀ l : List Char, (skipWsRun l).length ≤ l.length := by
  intro l
  induction l with
  | nil => simp [skipWsRun]
  | cons c rest ih =>
    unfold skipWsRun
    split
    · exact Nat.le_trans ih (by simp)
    · simp

def splitParts (l : List Char) (acc : List Char) : List (List Char) :=
  match l with
  | [] => [acc.reverse]
  | c :: rest =>
    if c = ',' then acc.reverse :: splitParts rest []
    else if isJsWs c then acc.reverse :: splitParts (skipWsRun rest) []
    else splitParts rest (c :: acc)
termination_by l.length
decreasing_by
  · simp
  · exact Nat.lt_succ_of_le (skipWsRun_length_le rest)
  · simp

/-- Model of `trimmed.split('-')[0]`: the characters before the first `-`. -/
def dashFirst (l : List Char) : List Char := l.takeWhile (fun c => c ≠ '-')

/-- Model of `trimmed.split('-')[1]`: the characters between the first and the
second `-` (the destructuring takes only the first two fields). -/
def dashSecond (l : List Char) : List Char :=
  ((l.dropWhile (fun c => c ≠ '-')).drop 1).takeWhile (fun c => c ≠ '-')

/-- Handling of a token containing `-`: parse both ends, clamp
`s = max(1, min(a,b))`, `e = min(totalPages, max(a,b))`, add every
1-based page of `[s, e]` as a 0-based index. -/
def addRangeToken (totalPages : ℕ) (acc : Finset ℕ) (tok : List Char) : Finset ℕ :=
  match parseIntJs (dashFirst tok), parseIntJs (dashSecond tok) with
  | some a, some b =>
    let s : Int := max 1 (min a b)
    let e : Int := min (totalPages : Int) (max a b)
    acc ∪ (Finset.Icc s e).image (fun i => (i - 1).toNat)
  | _, _ => acc

/-- Handling of a token without `-`: a single 1-based page number,
valid only when `1 ≤ page ≤ totalPages`. -/
def addSingleToken (totalPages : ℕ) (acc : Finset ℕ) (tok : List Char) : Finset ℕ :=
  match parseIntJs tok with
  | some p =>
    if 1 ≤ p ∧ p ≤ (totalPages : Int) then acc ∪ {(p - 1).toNat} else acc
  | none => acc

/-- Model of `parsePageRange` of the source.  The JavaScript `Set` is modelled as
a `Finset`; the final `Array.from(pages).sort((a,b) => a-b)` is the
ascending sorted listing, so the set's insertion order is irrelevant. -/
def parsePageRange (rangeStr : String) (totalPages : ℕ) : List ℕ :=
  let parts := splitParts rangeStr.data []
  let pages : Finset ℕ := parts.foldl (fun acc part =>
    let trimmed := trimChars part
    if trimmed = [] then acc
    else if trimmed.contains '-' then addRangeToken totalPages acc trimmed
    else addSingleToken totalPages acc trimmed) ∅
  pages.sort (· ≤ ·)

/-! ### ChunkScheduler: the chunking loop of
`parseStandardsAndGeneratePlan` (`for (i = 0; i < len; i += CHUNK_SIZE)
push(slice(i, i + CHUNK_SIZE))`), parameterized by the chunk size. -/

/-- The fixed chunk size of the source. -/
def CHUNK_SIZE : ℕ := 3

def chunkIndices (K : ℕ) (l : List ℕ) : List (List ℕ) :=
  if l = [] ∨ K = 0 then []
  else l.take K :: chunkIndices K (l.drop K)
termination_by l.length
decreasing_by
  rename_i h
  push_neg at h
  have h1 : l ≠ [] := h.1
  have h2 : K ≠ 0 := h.2
  have : 0 < l.length := List.length_pos.mpr h1
  simp only [List.length_drop]
  omega

/-! ### DocumentSlicer (`extractPdfPagesByIndices` in the source) -/

/-- Outcome of `PDFDocument.load` on the uploaded file: either a
document (its pages abstracted as a list of page values) or a structural
failure (a thrown exception). -/
inductive PdfLoadOutcome where
  | ok (pages : List ℕ)
  | structuralFailure
deriving DecidableEq, Repr

/-- Model of `extractPdfPagesByIndices`: returns `null` (`none`) for an empty
index list; any structural failure (load, copy of an out-of-range page,
re-encode) is caught and also yields `null`, never a distinguishable
error value. -/
def extractPdfPagesByIndices (doc : PdfLoadOutcome) (pageIndices : List ℕ) :
    Option (List ℕ) :=
  if pageIndices = [] then none
  else
    match doc with
    | .structuralFailure => none
    | .ok pages =>
      if pageIndices.all (fun i => decide (i < pages.length)) then
        some (pageIndices.map (fun i => pages.getD i 0))
      else none

/-! ### Fan-out/fan-in and failure propagation (`analyzeChunk` and the
body of `parseStandardsAndGeneratePlan`) -/

/-- Result of one external extraction call for a chunk. -/
inductive ChunkOutcome where
  | success (records : List Candidate)
  | failure
deriving DecidableEq, Repr

/-- Model of `analyzeChunk`: a failed call is caught (`console.warn`) and
contributes `[]`. -/
def analyzeChunkResult : ChunkOutcome → List Candidate
  | .success records => records
  | .failure => []

/-- The fan-in of the chunked path: `Promise.all` preserves chunk order
and every chunk's records are appended into `allItems`. -/
def runChunks (outcomes : List ChunkOutcome) : List Candidate :=
  (outcomes.map analyzeChunkResult).flatten

/-- The overall chunked pipeline after the fan-in: consolidation of the
merged pool.  The source's only thrown error is the missing-API-key
guard, which precedes this logic; with a key present the function always
returns a plain record list. -/
def pipelineResult (outcomes : List ChunkOutcome) : List Candidate :=
  consolidate (runChunks outcomes)

/-- The fallback path (chunking setup failed): a single whole-document
call, then the same consolidation. -/
def pipelineFallbackResult (outcome : ChunkOutcome) : List Candidate :=
  consolidate (analyzeChunkResult outcome)

/-! ### Concrete candidate fixtures -/

/-- A coded achievement standard (scenario of §8). -/
def candCoded : Candidate := ⟨"", "[9수01-01] 지수법칙을 이해한다.", "", "", ""⟩

/-- The code-less noun phrase of the §8 scenario (9 characters). -/
def candNoun : Candidate := ⟨"", "일차방정식의 풀이", "", "", ""⟩

/-- A coded candidate whose body after code removal is 5 characters,
while the full cleaned text is 15 characters. -/
def candShortBody : Candidate := ⟨"", "[9수01-01] 이해한다.", "", "", ""⟩

/-- A code-less sentence candidate. -/
def candNoCode : Candidate := ⟨"", "지수법칙을 이해할 수 있다.", "", "", ""⟩

/-- The same standard bearing a bracketed code. -/
def candWithCode : Candidate := ⟨"", "[9수01-01] 지수법칙을 이해할 수 있다.", "", "", ""⟩

/-- A 10-character standard containing the corrupted sequence
U+C544 U+1162, which the sanitizer contracts to 9 characters. -/
def candCorrupt : Candidate :=
  ⟨"", String.mk ['가', '나', '다', '라', '마', '바', '사', ahChar, aeJamo, '다'],
   "", "", ""⟩

/-! ### Claim theorems -/

/-- C1 counterexample: when every chunk fails, the pipeline returns the
empty record list — a value of the plain list result type, not a
`TotalExtractionFailure` error; the same holds for a failed fallback
call.  No such error exists anywhere in the code. -/
theorem allChunksFail_returns_empty_list :
    pipelineResult [ChunkOutcome.failure, ChunkOutcome.failure] = [] ∧
    pipelineFallbackResult ChunkOutcome.failure = [] := ⟨rfl, rfl⟩

/-- C1 (amended): whenever every chunk's extraction call fails, the
overall operation returns an empty record list (failures are only
logged); likewise for a failed single fallback call.  No
`TotalExtractionFailure` is surfaced, so a total failure is
indistinguishable from a genuine "nothing found". -/
theorem totalFailure_yields_empty (outcomes : List ChunkOutcome)
    (h : ∀ o ∈ outcomes, o = ChunkOutcome.failure) :
    pipelineResult outcomes = [] ∧
    pipelineFallbackResult ChunkOutcome.failure = [] := by
  refine ⟨?_, rfl⟩
  have hrun : runChunks outcomes = [] := by
    unfold runChunks
    induction outcomes with
    | nil => rfl
    | cons o rest ih =>
      have ho : o = ChunkOutcome.failure := h o (by simp)
      have hrest := ih (fun o ho' => h o (by simp [ho']))
      simp [ho, analyzeChunkResult, hrest]
  rw [pipelineResult, hrun]
  rfl

/-- C1 witness. -/
theorem totalFailure_yields_empty_witness :
    pipelineResult [ChunkOutcome.failure] = [] ∧
    pipelineFallbackResult ChunkOutcome.failure = [] :=
  totalFailure_yields_empty [ChunkOutcome.failure] (by simp)

/-- C3: the two-candidate pool consisting of the coded standard
`[9수01-01] 지수법칙을 이해한다.` and the code-less noun phrase
`일차방정식의 풀이` consolidates to exactly one record, the coded one
(the noun phrase is dropped by the 10-character minimum-length filter). -/
theorem scenario_coded_and_noun : consolidate [candCoded, candNoun] = [candCoded] := by
  decide

/-- C2 counterexample: a candidate whose body after bracketed-code
removal has only 5 characters (`이해한다.`) survives consolidation,
because the source applies the 10-character minimum to the cleaned text
*including* the code (15 characters here). -/
theorem shortBody_not_excluded :
    (bodyOf candShortBody).length < 10 ∧
    consolidate [candShortBody] = [candShortBody] := by
  constructor
  · decide
  · decide

/-- C6 counterexample: consolidation is not idempotent.  The sanitizer
contracts the 10-character standard of `candCorrupt` to 9 characters, so
re-running consolidation on its own output drops the record. -/
theorem consolidate_not_idempotent :
    consolidate (consolidate [candCorrupt]) ≠ consolidate [candCorrupt] := by
  decide

/-- C9 counterexample: a structural failure while reading or re-encoding
the source document makes the slice operation return `none` (JavaScript
`null`) — the very same value returned for a benign empty page
selection — rather than a distinguishable `DocumentProcessingError`. -/
theorem slice_failure_returns_null :
    extractPdfPagesByIndices PdfLoadOutcome.structuralFailure [0] = none ∧
    extractPdfPagesByIndices (PdfLoadOutcome.ok [5, 7]) [] = none := ⟨rfl, rfl⟩

/-- C9 (amended): on any structural failure the slice operation returns
`null` (an absent document), never a distinguishable error outcome; the
caller recovers by treating the chunk as empty. -/
theorem slice_structural_failure_null (pageIndices : List ℕ) :
    extractPdfPagesByIndices PdfLoadOutcome.structuralFailure pageIndices = none := by
  unfold extractPdfPagesByIndices
  split <;> rfl

/-! ### PageRangeParser lemmas (C5) -/

theorem addRangeToken_bound (totalPages : ℕ) (acc : Finset ℕ) (tok : List Char)
    (hacc : ∀ x ∈ acc, x < totalPages) :
    ∀ x ∈ addRangeToken totalPages acc tok, x < totalPages := by
  intro x hx
  unfold addRangeToken at hx
  split at hx
  · rename_i a b _ _
    rw [Finset.mem_union] at hx
    rcases hx with hx | hx
    · exact hacc x hx
    · rw [Finset.mem_image] at hx
      obtain ⟨i, hi, hxi⟩ := hx
      rw [Finset.mem_Icc] at hi
      have h1 : (1 : Int) ≤ i := le_trans (le_max_left _ _) hi.1
      have h2 : i ≤ (totalPages : Int) := le_trans hi.2 (min_le_left _ _)
      omega
  · exact hacc x hx

theorem addSingleToken_bound (totalPages : ℕ) (acc : Finset ℕ) (tok : List Char)
    (hacc : ∀ x ∈ acc, x < totalPages) :
    ∀ x ∈ addSingleToken totalPages acc tok, x < totalPages := by
  intro x hx
  unfold addSingleToken at hx
  split at hx
  · rename_i p _
    split at hx
    · rename_i hp
      rw [Finset.mem_union, Finset.mem_singleton] at hx
      rcases hx with hx | hx
      · exact hacc x hx
      · obtain ⟨hp1, hp2⟩ := hp
        omega
    · exact hacc x hx
  · exact hacc x hx

theorem parsePageRange_fold_bound (totalPages : ℕ) :
    ∀ (parts : List (List Char)) (acc : Finset ℕ),
      (∀ x ∈ acc, x < totalPages) →
      ∀ x ∈ parts.foldl (fun acc part =>
        let trimmed := trimChars part
        if trimmed = [] then acc
        else if trimmed.contains '-' then addRangeToken totalPages acc trimmed
        else addSingleToken totalPages acc trimmed) acc, x < totalPages := by
  intro parts
  induction parts with
  | nil => intro acc hacc x hx; exact hacc x hx
  | cons part rest ih =>
    intro acc hacc x hx
    rw [List.foldl_cons] at hx
    refine ih _ ?_ x hx
    intro y hy
    simp only at hy
    by_cases h1 : trimChars part = []
    · rw [if_pos h1] at hy; exact hacc y hy
    · rw [if_neg h1] at hy
      by_cases h2 : (trimChars part).contains '-' = true
      · rw [if_pos h2] at hy
        exact addRangeToken_bound totalPages acc _ hacc y hy
      · rw [if_neg h2] at hy
        exact addSingleToken_bound totalPages acc _ hacc y hy

/-- C5: for every range expression and every `totalPages`, `parsePageRange`
returns a strictly ascending (hence duplicate-free) list of indices, all
within `[0, totalPages)`. -/
theorem parsePageRange_spec (rangeStr : String) (totalPages : ℕ) :
    (parsePageRange rangeStr totalPages).Sorted (· < ·) ∧
    (parsePageRange rangeStr totalPages).Nodup ∧
    ∀ i ∈ parsePageRange rangeStr totalPages, i < totalPages := by
  unfold parsePageRange
  refine ⟨Finset.sort_sorted_lt _, Finset.sort_nodup _ _, ?_⟩
  intro i hi
  rw [Finset.mem_sort] at hi
  exact parsePageRange_fold_bound totalPages _ ∅ (by simp) i hi

/-! ### ChunkScheduler lemmas (C7) -/

theorem chunkIndices_flatten (K : ℕ) (hK : 0 < K) :
    ∀ l : List ℕ, (chunkIndices K l).flatten = l := by
  have H : ∀ (n : ℕ) (l : List ℕ), l.length ≤ n → (chunkIndices K l).flatten = l := by
    intro n
    induction n with
    | zero =>
      intro l hl
      have hnil : l = [] := List.length_eq_zero.mp (Nat.le_zero.mp hl)
      subst hnil
      rw [chunkIndices]
      simp
    | succ n ih =>
      intro l hl
      rw [chunkIndices]
      by_cases h : l = [] ∨ K = 0
      · rcases h with h | h
        · subst h; simp
        · omega
      · rw [if_neg h]
        push_neg at h
        have hlen : 0 < l.length := List.length_pos.mpr h.1
        rw [List.flatten_cons, ih (l.drop K) (by simp only [List.length_drop]; omega)]
        exact List.take_append_drop K l
  exact fun l => H l.length l le_rfl

theorem chunkIndices_sizes (K : ℕ) :
    ∀ l : List ℕ, ∀ c ∈ chunkIndices K l, c.length ≤ K := by
  have H : ∀ (n : ℕ) (l : List ℕ), l.length ≤ n →
      ∀ c ∈ chunkIndices K l, c.length ≤ K := by
    intro n
    induction n with
    | zero =>
      intro l hl c hc
      have hnil : l = [] := List.length_eq_zero.mp (Nat.le_zero.mp hl)
      subst hnil
      rw [chunkIndices] at hc
      simp at hc
    | succ n ih =>
      intro l hl c hc
      rw [chunkIndices] at hc
      by_cases h : l = [] ∨ K = 0
      · rw [if_pos h] at hc; simp at hc
      · rw [if_neg h] at hc
        push_neg at h
        have hlen : 0 < l.length := List.length_pos.mpr h.1
        rcases List.mem_cons.mp hc with hc | hc
        · subst hc; simp
        · exact ih (l.drop K) (by simp only [List.length_drop]; omega) c hc
  exact fun l => H l.length l le_rfl

theorem chunkIndices_ne_nil_of (K : ℕ) (l : List ℕ) (hl : l ≠ []) (hK : K ≠ 0) :
    chunkIndices K l ≠ [] := by
  rw [chunkIndices]
  rw [if_neg (by push_neg; exact ⟨hl, hK⟩)]
  simp

theorem chunkIndices_dropLast_full (K : ℕ) (hK : 0 < K) :
    ∀ l : List ℕ, ∀ c ∈ (chunkIndices K l).dropLast, c.length = K := by
  have H : ∀ (n : ℕ) (l : List ℕ), l.length ≤ n →
      ∀ c ∈ (chunkIndices K l).dropLast, c.length = K := by
    intro n
    induction n with
    | zero =>
      intro l hl c hc
      have hnil : l = [] := List.length_eq_zero.mp (Nat.le_zero.mp hl)
      subst hnil
      rw [chunkIndices] at hc
      simp at hc
    | succ n ih =>
      intro l hl c hc
      rw [chunkIndices] at hc
      by_cases h : l = [] ∨ K = 0
      · rw [if_pos h] at hc; simp at hc
      · rw [if_neg h] at hc
        push_neg at h
        have hlen : 0 < l.length := List.length_pos.mpr h.1
        by_cases hrest : chunkIndices K (l.drop K) = []
        · rw [hrest] at hc
          simp at hc
        · rw [List.dropLast_cons_of_ne_nil hrest] at hc
          rcases List.mem_cons.mp hc with hc | hc
          · -- the head chunk is followed by further chunks, so the list
            -- still has more than K elements and `take K` is full
            have hdrop : l.drop K ≠ [] := by
              intro hdnil
              exact hrest (by rw [hdnil, chunkIndices]; simp)
            have hlong : K < l.length := by
              by_contra hle
              push_neg at hle
              exact hdrop (List.drop_eq_nil_of_le hle)
            subst hc
            simp only [List.length_take]
            omega
          · exact ih (l.drop K) (by simp only [List.length_drop]; omega) c hc
  exact fun l => H l.length l le_rfl

/-- C7: for every index sequence and chunk size `K > 0`, the chunking
loop of the source partitions the sequence exactly, in order (the
concatenation of the chunks is the original sequence), with every chunk
of size at most `K` and every chunk except possibly the last of size
exactly `K`. -/
theorem chunking_partitions (K : ℕ) (hK : 0 < K) (l : List ℕ) :
    (chunkIndices K l).flatten = l ∧
    (∀ c ∈ chunkIndices K l, c.length ≤ K) ∧
    (∀ c ∈ (chunkIndices K l).dropLast, c.length = K) :=
  ⟨chunkIndices_flatten K hK l, chunkIndices_sizes K l,
    chunkIndices_dropLast_full K hK l⟩

/-- C7 witness: the source's chunk size 3 on a four-page selection. -/
theorem chunking_partitions_witness :
    (chunkIndices 3 [0, 1, 2, 3]).flatten = [0, 1, 2, 3] ∧
    (∀ c ∈ chunkIndices 3 [0, 1, 2, 3], c.length ≤ 3) ∧
    (∀ c ∈ (chunkIndices 3 [0, 1, 2, 3]).dropLast, c.length = 3) :=
  chunking_partitions 3 (by decide) [0, 1, 2, 3]

/-! ### Invariants of the consolidation loop -/

theorem consolidateStep_not_accepted (st : List Candidate × List (List Char × ℕ))
    (c : Candidate) (h : ¬ accepted c) : consolidateStep st c = st := by
  unfold consolidateStep
  by_cases h1 : cleanStdOf c = [] ∨ (cleanStdOf c).length < 10
  · rw [if_pos h1]
  · rw [if_neg h1]
    by_cases h2 : headersHit (cleanKeyOf c) = true
    · rw [if_pos h2]
    · rw [if_neg h2]
      by_cases h3 : (hasCodeChars (cleanStdOf c) = false ∧ endsWithDa (bodyOf c) = false ∧
          endsWithNoun (bodyOf c) = false) ∧ (cleanKeyOf c).length < 5
      · rw [if_pos h3]
      · rw [if_neg h3]
        by_cases h4 : c.unit ≠ "" ∧ removeWsChars c.unit.data = cleanKeyOf c
        · rw [if_pos h4]
        · exact absurd ⟨h1, h2, h3, h4⟩ h

theorem consolidateStep_accepted (st : List Candidate × List (List Char × ℕ))
    (c : Candidate) (h : accepted c) :
    consolidateStep st c =
      match st.2.lookup (cleanKeyOf c) with
      | some index =>
        if hasCodeChars (st.1.getD index default).standard.data = false ∧
           hasCodeChars (cleanStdOf c) = true then
          (st.1.set index c, st.2)
        else st
      | none => (st.1 ++ [c], (cleanKeyOf c, st.1.length) :: st.2) := by
  obtain ⟨h1, h2, h3, h4⟩ := h
  unfold consolidateStep
  rw [if_neg h1, if_neg h2, if_neg h3, if_neg h4]

theorem consolidateStep_accepted_none (st : List Candidate × List (List Char × ℕ))
    (c : Candidate) (hacc : accepted c)
    (hl : st.2.lookup (cleanKeyOf c) = none) :
    consolidateStep st c = (st.1 ++ [c], (cleanKeyOf c, st.1.length) :: st.2) := by
  rw [consolidateStep_accepted st c hacc, hl]

theorem consolidateStep_accepted_some (st : List Candidate × List (List Char × ℕ))
    (c : Candidate) (index : ℕ) (hacc : accepted c)
    (hl : st.2.lookup (cleanKeyOf c) = some index) :
    consolidateStep st c =
      if hasCodeChars (st.1.getD index default).standard.data = false ∧
         hasCodeChars (cleanStdOf c) = true then
        (st.1.set index c, st.2)
      else st := by
  rw [consolidateStep_accepted st c hacc, hl]

/-- Coherence of `finalItems` and `bodyMap`: the map sends the key of the
record at position `j` to `j`, and every binding points at a record
carrying its key. -/
def StInv (st : List Candidate × List (List Char × ℕ)) : Prop :=
  (∀ j r, st.1[j]? = some r → st.2.lookup (cleanKeyOf r) = some j) ∧
  (∀ k i, st.2.lookup k = some i → ∃ r, st.1[i]? = some r ∧ cleanKeyOf r = k)

theorem stInv_empty : StInv ([], []) := by
  constructor
  · intro j r h; simp at h
  · intro k i h; simp at h

theorem lookup_none_of_not_mem_keys (st : List Candidate × List (List Char × ℕ))
    (hinv : StInv st) (k : List Char) (hk : k ∉ st.1.map cleanKeyOf) :
    st.2.lookup k = none := by
  cases hl : st.2.lookup k with
  | none => rfl
  | some i =>
    obtain ⟨r, hr, hkey⟩ := hinv.2 k i hl
    exact absurd (List.mem_map.mpr ⟨r, List.getElem?_mem hr, hkey⟩) hk

theorem lookup_ne_none_of_mem (st : List Candidate × List (List Char × ℕ))
    (hinv : StInv st) (r : Candidate) (hr : r ∈ st.1) :
    st.2.lookup (cleanKeyOf r) ≠ none := by
  obtain ⟨j, hj⟩ := List.mem_iff_getElem?.mp hr
  rw [hinv.1 j r hj]
  simp

theorem set_of_getElem?_eq {α : Type} (l : List α) (i : ℕ) (a : α)
    (h : l[i]? = some a) : l.set i a = l := by
  apply List.ext_getElem?
  intro n
  by_cases hn : n = i
  · subst hn
    rw [List.getElem?_set_self (List.getElem?_eq_some_iff.mp h).1, h]
  · rw [List.getElem?_set_ne (fun he => hn he.symm)]

theorem stInv_append (st : List Candidate × List (List Char × ℕ)) (c : Candidate)
    (hinv : StInv st) (hl : st.2.lookup (cleanKeyOf c) = none) :
    StInv (st.1 ++ [c], (cleanKeyOf c, st.1.length) :: st.2) := by
  constructor
  · intro j r hjr
    rcases Nat.lt_trichotomy j st.1.length with hj | hj | hj
    · rw [List.getElem?_append_left hj] at hjr
      have hold := hinv.1 j r hjr
      have hne : (cleanKeyOf r == cleanKeyOf c) = false := by
        rw [beq_eq_false_iff_ne]
        intro he
        rw [he, hl] at hold
        cases hold
      simpa [List.lookup_cons, hne] using hold
    · subst hj
      rw [List.getElem?_concat_length] at hjr
      injection hjr with hjr
      subst hjr
      simp [List.lookup_cons]
    · have hnone : (st.1 ++ [c])[j]? = none := by
        rw [List.getElem?_eq_none_iff]
        simp only [List.length_append, List.length_cons, List.length_nil]
        omega
      rw [hnone] at hjr
      cases hjr
  · intro k i hki
    rw [List.lookup_cons] at hki
    split at hki
    · rename_i hk
      injection hki with hki
      subst hki
      exact ⟨c, List.getElem?_concat_length st.1 c, (beq_iff_eq.mp hk).symm⟩
    · obtain ⟨r, hr, hkey⟩ := hinv.2 k i hki
      have hi : i < st.1.length := (List.getElem?_eq_some_iff.mp hr).1
      exact ⟨r, by rw [List.getElem?_append_left hi]; exact hr, hkey⟩

theorem stInv_replace (st : List Candidate × List (List Char × ℕ)) (c : Candidate)
    (index : ℕ) (hinv : StInv st) (hl : st.2.lookup (cleanKeyOf c) = some index) :
    StInv (st.1.set index c, st.2) := by
  obtain ⟨r0, hr0, hr0key⟩ := hinv.2 _ index hl
  have hidx : index < st.1.length := (List.getElem?_eq_some_iff.mp hr0).1
  constructor
  · intro j r hjr
    by_cases hj : j = index
    · subst hj
      rw [List.getElem?_set_self hidx] at hjr
      injection hjr with hjr
      subst hjr
      exact hl
    · rw [List.getElem?_set_ne (fun he => hj he.symm)] at hjr
      exact hinv.1 j r hjr
  · intro k i hki
    obtain ⟨r, hr, hkey⟩ := hinv.2 k i hki
    by_cases hi : i = index
    · subst hi
      refine ⟨c, List.getElem?_set_self hidx, ?_⟩
      rw [hr0] at hr
      injection hr with hr
      subst hr
      rw [← hr0key]
      exact hkey
    · exact ⟨r, by rw [List.getElem?_set_ne (fun he => hi he.symm)]; exact hr, hkey⟩

/-- Full loop invariant: state coherence, pairwise-distinct keys in
`finalItems`, and every stored record is an accepted member of the
source pool. -/
def LoopInv (src : List Candidate) (st : List Candidate × List (List Char × ℕ)) : Prop :=
  StInv st ∧ (st.1.map cleanKeyOf).Nodup ∧ ∀ r ∈ st.1, accepted r ∧ r ∈ src

theorem loopInv_step (src : List Candidate) (st : List Candidate × List (List Char × ℕ))
    (c : Candidate) (hc : c ∈ src) (h : LoopInv src st) :
    LoopInv src (consolidateStep st c) := by
  obtain ⟨hinv, hnodup, hgood⟩ := h
  by_cases hacc : accepted c
  · cases hl : st.2.lookup (cleanKeyOf c) with
    | none =>
      rw [consolidateStep_accepted_none st c hacc hl]
      refine ⟨stInv_append st c hinv hl, ?_, ?_⟩
      · rw [List.map_append]
        refine List.Nodup.append hnodup (by simp) ?_
        intro k hk1 hk2
        simp only [List.map_cons, List.map_nil, List.mem_singleton] at hk2
        subst hk2
        obtain ⟨r, hrmem, hrkey⟩ := List.mem_map.mp hk1
        have hne := lookup_ne_none_of_mem st hinv r hrmem
        rw [hrkey, hl] at hne
        exact hne rfl
      · intro r hr
        rcases List.mem_append.mp hr with hr | hr
        · exact hgood r hr
        · rw [List.mem_singleton] at hr
          subst hr
          exact ⟨hacc, hc⟩
    | some index =>
      rw [consolidateStep_accepted_some st c index hacc hl]
      by_cases hrep : hasCodeChars (st.1.getD index default).standard.data = false ∧
          hasCodeChars (cleanStdOf c) = true
      · rw [if_pos hrep]
        obtain ⟨r0, hr0, hr0key⟩ := hinv.2 _ index hl
        have hidx : index < st.1.length := (List.getElem?_eq_some_iff.mp hr0).1
        refine ⟨stInv_replace st c index hinv hl, ?_, ?_⟩
        · rw [List.map_set,
            set_of_getElem?_eq (st.1.map cleanKeyOf) index (cleanKeyOf c)
              (by rw [List.getElem?_map, hr0]; simp [hr0key])]
          exact hnodup
        · intro r hr
          rcases List.mem_or_eq_of_mem_set hr with hr | hr
          · exact hgood r hr
          · subst hr
            exact ⟨hacc, hc⟩
      · rw [if_neg hrep]
        exact ⟨hinv, hnodup, hgood⟩
  · rw [consolidateStep_not_accepted st c hacc]
    exact ⟨hinv, hnodup, hgood⟩

theorem loopInv_foldl (src : List Candidate) :
    ∀ (items : List Candidate) (st : List Candidate × List (List Char × ℕ)),
      (∀ c ∈ items, c ∈ src) → LoopInv src st →
      LoopInv src (items.foldl consolidateStep st) := by
  intro items
  induction items with
  | nil => intro st _ h; exact h
  | cons c rest ih =>
    intro st hmem h
    rw [List.foldl_cons]
    exact ih _ (fun x hx => hmem x (List.mem_cons_of_mem c hx))
      (loopInv_step src st c (hmem c (List.mem_cons_self c rest)) h)

theorem dedupItems_loopInv (items : List Candidate) :
    LoopInv items (items.foldl consolidateStep ([], [])) :=
  loopInv_foldl items items ([], []) (fun _ h => h)
    ⟨stInv_empty, by simp, by simp⟩

/-- Folding accepted records with pairwise-fresh keys over a coherent
state simply appends them all. -/
theorem foldl_fresh_append :
    ∀ (rest : List Candidate) (st : List Candidate × List (List Char × ℕ)),
      StInv st → (∀ r ∈ rest, accepted r) →
      ((st.1.map cleanKeyOf) ++ rest.map cleanKeyOf).Nodup →
      (rest.foldl consolidateStep st).1 = st.1 ++ rest := by
  intro rest
  induction rest with
  | nil => intro st _ _ _; simp
  | cons r rest' ih =>
    intro st hinv hacc hnodup
    have hrkey_notin : cleanKeyOf r ∉ st.1.map cleanKeyOf := by
      rw [List.nodup_append] at hnodup
      intro hmem
      exact hnodup.2.2 hmem (by simp)
    have hl : st.2.lookup (cleanKeyOf r) = none :=
      lookup_none_of_not_mem_keys st hinv _ hrkey_notin
    rw [List.foldl_cons, consolidateStep_accepted_none st r (hacc r (by simp)) hl]
    rw [ih (st.1 ++ [r], (cleanKeyOf r, st.1.length) :: st.2)
      (stInv_append st r hinv hl)
      (fun x hx => hacc x (List.mem_cons_of_mem r hx))
      (by simpa [List.map_append, List.append_assoc] using hnodup)]
    simp

/-! ### Remaining claim theorems about the consolidation loop -/

/-- C10: the records returned by the filter/deduplication stage carry
pairwise-distinct NormalizedKeys (`cleanBody` values computed from the
standard text as stored, before the final sanitization pass). -/
theorem dedupItems_keys_nodup (items : List Candidate) :
    ((dedupItems items).map cleanKeyOf).Nodup := by
  unfold dedupItems
  exact (dedupItems_loopInv items).2.1

/-- C2 (amended): the minimum-length filter applies to the cleaned
standard text *including* any bracketed code (after trimming and
leading-marker removal, before code removal): every record kept by the
filter/deduplication stage has a cleaned standard text of at least 10
characters, and a candidate whose cleaned text is shorter contributes
nothing. -/
theorem dedupItems_min_length (items : List Candidate) (r : Candidate)
    (hr : r ∈ dedupItems items) : 10 ≤ (cleanStdOf r).length := by
  have h := ((dedupItems_loopInv items).2.2 r (by exact hr)).1
  obtain ⟨h1, -, -, -⟩ := h
  push_neg at h1
  omega

/-- C2 witness. -/
theorem dedupItems_min_length_witness : 10 ≤ (cleanStdOf candCoded).length :=
  dedupItems_min_length [candCoded] candCoded (by decide)

/-- C4: two candidates passing every filter and sharing a NormalizedKey,
one without any bracketed code and one bearing one: the consolidated
output retains (only) the code-bearing version at the first position,
regardless of the order of the pair. -/
theorem code_preference (a b : Candidate)
    (ha : accepted a) (hb : accepted b)
    (hkey : cleanKeyOf a = cleanKeyOf b)
    (haraw : hasCodeChars a.standard.data = false)
    (haclean : hasCodeChars (cleanStdOf a) = false)
    (hbclean : hasCodeChars (cleanStdOf b) = true) :
    consolidate [a, b] = [sanitizeFields b] ∧
    consolidate [b, a] = [sanitizeFields b] := by
  constructor
  · unfold consolidate dedupItems
    rw [List.foldl_cons, consolidateStep_accepted_none ([], []) a ha (by simp)]
    simp only [List.nil_append, List.length_nil]
    rw [List.foldl_cons,
      consolidateStep_accepted_some ([a], [(cleanKeyOf a, 0)]) b 0 hb
        (by rw [← hkey]; simp)]
    rw [if_pos ⟨by simpa using haraw, hbclean⟩]
    simp
  · unfold consolidate dedupItems
    rw [List.foldl_cons, consolidateStep_accepted_none ([], []) b hb (by simp)]
    simp only [List.nil_append, List.length_nil]
    rw [List.foldl_cons,
      consolidateStep_accepted_some ([b], [(cleanKeyOf b, 0)]) a 0 ha
        (by rw [hkey]; simp)]
    rw [if_neg (by rintro ⟨-, h2⟩; rw [haclean] at h2; exact Bool.noConfusion h2)]
    simp

/-- C4 witness: the same standard with and without its bracketed code,
in both input orders. -/
theorem code_preference_witness :
    consolidate [candNoCode, candWithCode] = [sanitizeFields candWithCode] ∧
    consolidate [candWithCode, candNoCode] = [sanitizeFields candWithCode] :=
  code_preference candNoCode candWithCode (by decide) (by decide) (by decide)
    (by decide) (by decide) (by decide)

theorem map_sanitize_eq_self (l : List Candidate)
    (h : ∀ r ∈ l, sanitizeFields r = r) : l.map sanitizeFields = l := by
  induction l with
  | nil => rfl
  | cons a t ih =>
    rw [List.map_cons, h a (by simp), ih (fun r hr => h r (List.mem_cons_of_mem a hr))]

/-- C6 (amended): the filter/deduplication stage is idempotent, and the
whole consolidation step is idempotent on pools whose text fields are
already sanitized (fixed points of the sanitizer).  Unrestricted
idempotence fails because the final sanitization pass can shorten or
merge standard texts (see the counterexample). -/
theorem consolidate_idempotent_on_sanitized (L : List Candidate)
    (hs : ∀ c ∈ L, sanitizeFields c = c) :
    consolidate (consolidate L) = consolidate L := by
  have hloop := dedupItems_loopInv L
  have hsub : ∀ r ∈ dedupItems L, r ∈ L := fun r hr => (hloop.2.2 r hr).2
  have haccepted : ∀ r ∈ dedupItems L, accepted r := fun r hr => (hloop.2.2 r hr).1
  have hkeys : ((dedupItems L).map cleanKeyOf).Nodup := hloop.2.1
  have hfix : ∀ r ∈ dedupItems L, sanitizeFields r = r := fun r hr => hs r (hsub r hr)
  have hconsL : consolidate L = dedupItems L := map_sanitize_eq_self _ hfix
  rw [hconsL]
  have hded : dedupItems (dedupItems L) = dedupItems L := by
    have h := foldl_fresh_append (dedupItems L) ([], []) stInv_empty haccepted
      (by simpa using hkeys)
    simpa [dedupItems] using h
  unfold consolidate
  rw [hded]
  exact map_sanitize_eq_self _ hfix

/-- C6 witness. -/
theorem consolidate_idempotent_witness :
    consolidate (consolidate [candCoded]) = consolidate [candCoded] :=
  consolidate_idempotent_on_sanitized [candCoded] (by decide)

end TeacherPlan
